import Mathlib

/-!
Verification development for the kg-pg-mcp knowledge-base core
(`packages/kg-pg-mcp/kg_pg_mcp/`): the heading-aware token chunker
(`chunker.py`), the order-preserving embedding batcher (`embedder.py`),
and the similarity search / storage helpers (`server.py`, `models.py`).

Python text is modelled as `List Char`; Python `int` as `Int` where sign
matters (chunker configuration, SQL `LIMIT`) and as `Nat` where the source
only ever produces non-negative values; vectors of floats as `List ℚ`.
The external tokenizer (tiktoken) is an abstract `Encoding` parameter, and
the external embedding API response is an abstract function returning
index-tagged vectors, exactly the shape the code consumes.
-/

namespace KgPg

/-- Embedding vectors (`list[float]` in the source) modelled over ℚ. -/
abbrev Vec := List ℚ

/-- Abstract tokenizer adapter (tiktoken `Encoding`): `encode` maps text to
a token sequence, `decode` maps a token sequence back to text. -/
structure Encoding where
  encode : List Char → List Nat
  decode : List Nat → List Char

/-- Python `str.isspace` characters relevant to `str.strip()` (ASCII range):
space, tab, newline, carriage return, vertical tab, form feed. -/
def pyIsSpace (c : Char) : Bool :=
  c == ' ' || c == '\t' || c == '\n' || c == '\r' || c == '\x0b' || c == '\x0c'

/-- Python `str.strip()`: drop whitespace from both ends. -/
def pyStrip (l : List Char) : List Char :=
  ((l.dropWhile pyIsSpace).reverse.dropWhile pyIsSpace).reverse

/-- Python `str.rfind(pat)`: start index of the last occurrence of `pat`
in `l`, or `none` when absent (`-1` in Python). -/
def rfindSub (l pat : List Char) : Option Nat :=
  ((List.range l.length).filter (fun i => (l.drop i).take pat.length == pat)).getLast?

/-- The last occurrence of `pat` when its index is strictly past the midpoint
`len(text) // 2` (the guard used twice in `Chunker._snap_to_boundary`);
Python's `-1` result compares `> len // 2` as false, matching `none`. -/
def rfindGtHalf (l pat : List Char) : Option Nat :=
  match rfindSub l pat with
  | some i => if l.length / 2 < i then some i else none
  | none => none

/-- `Chunker._snap_to_boundary`: prefer the last paragraph break (`"\n\n"`)
past the midpoint, else the first of `". "`, `".\n"`, `"! "`, `"? "` whose
last occurrence is past the midpoint, else return the text unchanged. -/
def snapToBoundary (text : List Char) : List Char :=
  match rfindGtHalf text ['\n', '\n'] with
  | some i => text.take (i + 1)
  | none =>
    match [['.', ' '], ['.', '\n'], ['!', ' '], ['?', ' ']].findSome?
        (rfindGtHalf text) with
    | some i => text.take (i + 1)
    | none => text

/-- `ChunkerConfig`: `chunk_size` and `chunk_overlap` are Python ints
(the model name field only selects the tokenizer and is abstracted away). -/
structure ChunkerConfig where
  chunk_size : Int
  chunk_overlap : Int

/-- Normalize a Python slice bound for a list of length `n`
(negative indices count from the end, both ends clamped). -/
def pyBound (n : Nat) (i : Int) : Nat :=
  if i < 0 then (max (i + n) 0).toNat else min i.toNat n

/-- Python `l[a:b]`. -/
def pySlice (l : List α) (a b : Int) : List α :=
  (l.take (pyBound l.length b)).drop (pyBound l.length a)

/-- The `while start < total` loop of `Chunker._split_by_tokens`, with explicit
fuel: `none` means the fuel ran out, i.e. the Python loop has not terminated
within that many iterations (the loop advances `start` by
`chunk_size - chunk_overlap`, which for `chunk_overlap ≥ chunk_size` is ≤ 0,
so the Python loop never terminates and this model returns `none` for every
fuel). -/
def splitLoop (enc : Encoding) (size ov : Int) (tokens : List Nat) :
    Nat → Int → Option (List (List Char))
  | 0, start => if start < (tokens.length : Int) then none else some []
  | fuel + 1, start =>
    if start < (tokens.length : Int) then
      let e : Int := min (start + size) (tokens.length : Int)
      let chunkTokens := pySlice tokens start e
      let chunkText := enc.decode chunkTokens
      let chunkText2 :=
        if e < (tokens.length : Int) then snapToBoundary chunkText else chunkText
      match splitLoop enc size ov tokens fuel (start + (size - ov)) with
      | none => none
      | some rest => some (pyStrip chunkText2 :: rest)
    else some []

/-- `Chunker._split_by_tokens`: tokenize; if the total fits in `chunk_size`
return the text as one chunk; otherwise run the sliding-window loop (fuel =
token count, enough for any terminating run since each iteration advances
`start` by at least 1 when the configuration is valid) and drop empty
post-strip chunks (`[c for c in chunks if c]`). -/
def splitByTokens (cfg : ChunkerConfig) (enc : Encoding) (text : List Char) :
    Option (List (List Char)) :=
  let tokens := enc.encode text
  if (tokens.length : Int) ≤ cfg.chunk_size then some [text]
  else
    match splitLoop enc cfg.chunk_size cfg.chunk_overlap tokens tokens.length 0 with
    | none => none
    | some cs => some (cs.filter (fun c => !c.isEmpty))

/-- One match of the heading regex `^(#{1,6})\s+(.+)$` (re.MULTILINE):
overall start, the raw second group (the heading text before `.strip()`),
and the overall end (`match.end()`, the end of the second group). -/
structure HMatch where
  mstart : Nat
  heading : List Char
  mend : Nat
deriving Repr, DecidableEq

/-- Length of the maximal run of characters satisfying `p` starting at `i`. -/
def runLen (p : Char → Bool) (l : List Char) (i : Nat) : Nat :=
  ((l.drop i).takeWhile p).length

/-- `^` with re.MULTILINE: position 0 or just after a newline. -/
def isLineStart (l : List Char) (p : Nat) : Bool :=
  p == 0 || l[p - 1]? == some '\n'

/-- First index `≥ m` holding a newline, or the text length: where the greedy
`(.+)` stops (and where `$` matches). -/
def lineEnd (l : List Char) (m : Nat) : Nat :=
  m + ((l.drop m).takeWhile (fun c => c != '\n')).length

/-- Attempt the heading regex at position `p`: requires a line start, a
maximal run of 1–6 `#`, then at least one `\s` character, then at least one
character matchable by `.` (any non-newline). `\s` also matches newlines, so
when the whitespace run reaches the end of the text the engine backtracks
to leave the last non-newline whitespace character for the `(.+)` group. -/
def matchAt (l : List Char) (p : Nat) : Option HMatch :=
  if !isLineStart l p then none
  else
    let k := runLen (· == '#') l p
    if k < 1 ∨ 6 < k then none
    else
      let w := runLen pyIsSpace l (p + k)
      if w = 0 then none
      else
        if p + k + w < l.length then
          let m := p + k + w
          let e := lineEnd l m
          some ⟨p, (l.drop m).take (e - m), e⟩
        else
          match ((List.range l.length).filter
              (fun i => decide (p + k + 1 ≤ i) && l[i]? != some '\n')).getLast? with
          | some m =>
            let e := lineEnd l m
            some ⟨p, (l.drop m).take (e - m), e⟩
          | none => none

/-- `re.finditer` scan: try each position left to right, and resume after a
match at its end (every match here is non-empty, so `max` is the identity on
`m.mend`; the fuel `l.length + 1` covers the whole scan since the position
strictly increases each step). -/
def scanFrom (l : List Char) : Nat → Nat → List HMatch
  | 0, _ => []
  | fuel + 1, p =>
    if l.length ≤ p then []
    else
      match matchAt l p with
      | some m => m :: scanFrom l fuel (max m.mend (p + 1))
      | none => scanFrom l fuel (p + 1)

/-- All matches of the heading regex, in order. -/
def scanMatches (l : List Char) : List HMatch :=
  scanFrom l (l.length + 1) 0

/-- Where the current match's section content ends: the next match's start
(`matches[i + 1].start()`) or the end of the document. -/
def nextStart (text : List Char) : List HMatch → Nat
  | [] => text.length
  | m2 :: _ => m2.mstart

/-- For each match, the stripped heading (`match.group(2).strip()`) paired
with the stripped content slice `text[match.end() : next_start].strip()` —
the data `_split_by_headings` inspects before its `if content:` filter. -/
def matchSections (text : List Char) : List HMatch → List (List Char × List Char)
  | [] => []
  | m :: rest =>
    (pyStrip m.heading,
      pyStrip ((text.drop m.mend).take (nextStart text rest - m.mend)))
      :: matchSections text rest

/-- The per-match loop of `Chunker._split_by_headings`: each heading with the
(stripped) text running to the next match's start or the end of the document;
sections with empty stripped content are skipped (`if content:`). -/
def sectionsOf (text : List Char) : List HMatch → List (Option (List Char) × List Char)
  | [] => []
  | m :: rest =>
    let heading := pyStrip m.heading
    let content := pyStrip ((text.drop m.mend).take (nextStart text rest - m.mend))
    (if content.isEmpty then [] else [(some heading, content)]) ++ sectionsOf text rest

/-- `Chunker._split_by_headings`: no matches → one heading-less section holding
the whole text; otherwise optional pre-heading content (if non-empty after
strip) followed by the per-heading sections. -/
def splitByHeadings (text : List Char) : List (Option (List Char) × List Char) :=
  match scanMatches text with
  | [] => [(none, text)]
  | m0 :: rest =>
    let pre :=
      if 0 < m0.mstart then
        let pc := pyStrip (text.take m0.mstart)
        if pc.isEmpty then [] else [(none, pc)]
      else []
    pre ++ sectionsOf text (m0 :: rest)

/-- One output passage of `Chunker.chunk` (`ChunkResult` in the source). -/
structure ChunkResult where
  content : List Char
  chunk_index : Nat
  section_heading : Option (List Char)
  token_count : Nat
deriving Repr, DecidableEq

/-- The nested loop of `Chunker.chunk`: split each section by tokens and
number the passages with the single running counter `chunk_index`. -/
def chunkGo (cfg : ChunkerConfig) (enc : Encoding) :
    List (Option (List Char) × List Char) → Nat → Option (List ChunkResult)
  | [], _ => some []
  | (h, st) :: rest, idx =>
    match splitByTokens cfg enc st with
    | none => none
    | some cs =>
      match chunkGo cfg enc rest (idx + cs.length) with
      | none => none
      | some others =>
        some ((cs.enum.map fun p =>
          ⟨p.2, idx + p.1, h, (enc.encode p.2).length⟩) ++ others)

/-- `Chunker.chunk`: empty/whitespace-only input yields no passages;
otherwise split by headings then by tokens, numbering passages across all
sections. `none` propagates non-termination of the token-window loop. -/
def chunk (cfg : ChunkerConfig) (enc : Encoding) (text : List Char) :
    Option (List ChunkResult) :=
  if (pyStrip text).isEmpty then some []
  else chunkGo cfg enc (splitByHeadings text) 0

/-- `Chunker.__init__`: stores the configuration and resolves a tokenizer
encoding (falling back to `cl100k_base` on `KeyError`, so encoder resolution
never fails); it performs no validation of `chunk_size`/`chunk_overlap` and
raises nothing. -/
def chunkerInit (cfg : ChunkerConfig) (enc : Encoding) :
    Except String (ChunkerConfig × Encoding) :=
  .ok (cfg, enc)

/-- Stable insertion of `a` into `l`: `a` goes before the first element `b`
with `le a b` (so on equal keys the inserted, originally-earlier element
stays first — the stability Python's `sorted` guarantees). -/
def insertLe (le : α → α → Bool) (a : α) : List α → List α
  | [] => [a]
  | b :: l => if le a b then a :: b :: l else b :: insertLe le a l

/-- Stable sort by the Boolean relation `le` (insertion sort; Python's
`sorted` is also a stable sort, and for the distinct keys used below any two
stable sorts by the same key agree). -/
def sortLe (le : α → α → Bool) : List α → List α
  | [] => []
  | a :: l => insertLe le a (sortLe le l)

/-- `Embedder._embed_batch`: send `texts` to the embedding API (abstracted as
`api`, returning index-tagged vectors in arbitrary order, the shape of
`response.data`), re-sort the items by their returned `index`
(`sorted(response.data, key=lambda x: x.index)`), and keep the vectors. -/
def embedBatch (api : List α → List (Nat × Vec)) (texts : List α) : List Vec :=
  (sortLe (fun x y => decide (x.1 ≤ y.1)) (api texts)).map (·.2)

/-- Python `range(0, stop, step)` for `step ≥ 1`. -/
def pyRange (stop step : Nat) : List Nat :=
  (List.range ((stop + step - 1) / step)).map (· * step)

/-- `Embedder.embed_texts`: empty input short-circuits; input of at most
`bs` texts is one `_embed_batch` call; longer input is batched over
`range(0, total, bs)` with slices `texts[i : i + bs]`, concatenating each
batch's (re-sorted) output in batch order. -/
def embedTexts (api : List α → List (Nat × Vec)) (bs : Nat) (texts : List α) :
    List Vec :=
  if texts.isEmpty then []
  else if texts.length ≤ bs then embedBatch api texts
  else
    ((pyRange texts.length bs).map fun i =>
      embedBatch api ((texts.drop i).take bs)).flatten

/-- Number of `_embed_batch` calls (hence embedding requests) that
`embed_texts` issues for an input of `n` texts: none when empty, one when
`n ≤ bs`, else one per loop iteration, i.e. `len(range(0, n, bs))`. -/
def embedCalls (bs n : Nat) : Nat :=
  if n = 0 then 0 else if n ≤ bs then 1 else (pyRange n bs).length

/-- A `kb_documents` row (`KBDocument` in `models.py`); `ns` models the
`namespace` column (a Lean keyword), `metadata_` the JSONB `metadata` column
modelled as a key-value mapping. -/
structure KBDocument where
  id : Nat
  ns : String
  title : String
  source_type : String
  source_ref : Option String
  category : Option String
  metadata_ : List (String × String)
  token_count : Nat
deriving Repr, DecidableEq

/-- A `kb_chunks` row (`KBChunk` in `models.py`). The `embedding` column is
nullable in the ORM, but every row `_store_document` creates carries a
vector, and those are the rows the search claims range over. -/
structure KBChunk where
  id : Nat
  document_id : Nat
  ns : String
  chunk_index : Nat
  content : List Char
  section_heading : Option (List Char)
  token_count : Nat
  embedding : Vec
deriving Repr, DecidableEq

/-- The database state visible to `search`: the two tables. -/
structure DB where
  docs : List KBDocument
  chunks : List KBChunk
deriving Repr, DecidableEq

/-- A parsed input document (`ParseResult` fields used by
`_store_document`). -/
structure ParseResult where
  text : List Char
  title : Option String
  metadata : List (String × String)

/-- `_store_document`: chunk the text, embed all chunk contents through the
batcher, and build the `KBDocument` row plus one `KBChunk` row per
(chunk, embedding) pair — both rows carry the same `namespace` argument.
`docId` models the generated document UUID and `cid` the generated chunk
UUIDs (by position); `none` propagates chunker non-termination. The
`parsed.title or source_ref or "Untitled"` and `metadata or parsed.metadata`
fallbacks model Python `or` over `None` (absent) values. -/
def storeDocument (cfg : ChunkerConfig) (enc : Encoding)
    (api : List (List Char) → List (Nat × Vec)) (bs : Nat)
    (docId : Nat) (cid : Nat → Nat) (parsed : ParseResult)
    (source_type : String) (source_ref : Option String) (ns : String)
    (category : Option String) (metadata : Option (List (String × String))) :
    Option (KBDocument × List KBChunk) :=
  match chunk cfg enc parsed.text with
  | none => none
  | some chunks =>
    let totalTokens := (chunks.map (·.token_count)).sum
    let texts := chunks.map (·.content)
    let embeddings := embedTexts api bs texts
    let doc : KBDocument :=
      { id := docId
        ns := ns
        title := parsed.title.getD (source_ref.getD "Untitled")
        source_type := source_type
        source_ref := source_ref
        category := category
        metadata_ := metadata.getD parsed.metadata
        token_count := totalTokens }
    let rows := (chunks.zip embeddings).enum.map fun p =>
      { id := cid p.1
        document_id := docId
        ns := ns
        chunk_index := p.2.1.chunk_index
        content := p.2.1.content
        section_heading := p.2.1.section_heading
        token_count := p.2.1.token_count
        embedding := p.2.2 : KBChunk }
    some (doc, rows)

/-- The inner join `kb_chunks JOIN kb_documents ON chunk.document_id =
document.id` over the stored tables (row order models the store's natural
order, which the ranking then sorts). -/
def joinRows (db : DB) : List (KBChunk × KBDocument) :=
  (db.chunks.map fun c =>
    (db.docs.filter fun d => c.document_id == d.id).map fun d => (c, d)).flatten

/-- The JSONB containment operator `@>` over the key-value metadata model:
every pair of the filter occurs in the document's metadata. -/
def metaContains (m f : List (String × String)) : Bool :=
  f.all fun kv => m.contains kv

/-- The conjunctive WHERE clause of `search`: chunk namespace equals the
requested namespace; if a category was supplied the document category equals
it; if a metadata filter was supplied the document metadata contains it.
(`some` models a supplied, non-empty value: Python skips either filter for
`None` and for falsy `""`/`{}` arguments alike.) -/
def eligible (db : DB) (ns : String) (cat : Option String)
    (mf : Option (List (String × String))) : List (KBChunk × KBDocument) :=
  (joinRows db).filter fun cd =>
    cd.1.ns == ns
    && (match cat with
        | none => true
        | some c => cd.2.category == some c)
    && (match mf with
        | none => true
        | some f => metaContains cd.2.metadata_ f)

/-- The full-precision similarity the SELECT computes for a chunk:
`1 - cosine_distance(embedding, query_embedding)`, with the pgvector
distance operator abstracted as `dist`. -/
def simOf (dist : Vec → Vec → ℚ) (qv : Vec) (c : KBChunk) : ℚ :=
  1 - dist c.embedding qv

/-- `ORDER BY similarity DESC` over the eligible rows (a stable sort on the
full-precision similarity; ties are unspecified in SQL and resolved here by
store order). -/
def rankDesc (dist : Vec → Vec → ℚ) (qv : Vec)
    (rows : List (KBChunk × KBDocument)) : List (KBChunk × KBDocument) :=
  sortLe (fun a b => decide (simOf dist qv b.1 ≤ simOf dist qv a.1)) rows

/-- One element of the list `search` returns (the dict built per row). -/
structure SearchOut where
  chunk_id : Nat
  document_id : Nat
  title : String
  content : List Char
  chunk_index : Nat
  section_heading : Option (List Char)
  source_type : String
  source_ref : Option String
  category : Option String
  similarity : ℚ
deriving Repr, DecidableEq

/-- `round(float(x), 4)` modelled on ℚ: round to 4 decimal digits. -/
def round4 (q : ℚ) : ℚ := (round (q * 10000) : ℚ) / 10000

/-- The output dict for one selected row: all fields copied, the similarity
rounded to 4 digits only here, after ranking. -/
def mkOut (dist : Vec → Vec → ℚ) (qv : Vec) (cd : KBChunk × KBDocument) :
    SearchOut :=
  { chunk_id := cd.1.id
    document_id := cd.1.document_id
    title := cd.2.title
    content := cd.1.content
    chunk_index := cd.1.chunk_index
    section_heading := cd.1.section_heading
    source_type := cd.2.source_type
    source_ref := cd.2.source_ref
    category := cd.2.category
    similarity := round4 (simOf dist qv cd.1) }

/-- The `search` tool after the query embedding: build the filtered,
similarity-ordered, `LIMIT`-truncated statement and execute it against the
store. The second component counts ranking queries sent to the store: the
code has no special case for `limit ≤ 0`, so exactly one statement is always
executed; PostgreSQL evaluates `LIMIT limit` as truncation for `limit ≥ 0`
and rejects a negative limit with an error. -/
def searchExec (db : DB) (dist : Vec → Vec → ℚ) (qv : Vec) (ns : String)
    (lim : Int) (cat : Option String) (mf : Option (List (String × String))) :
    Except String (List SearchOut) × Nat :=
  if lim < 0 then (.error "LIMIT must not be negative", 1)
  else
    ((.ok (((rankDesc dist qv (eligible db ns cat mf)).take lim.toNat).map
      (mkOut dist qv))), 1)

/-- Character-level tokenizer instance used in concrete witness inputs:
every character is one token. -/
def encChar : Encoding :=
  ⟨fun s => s.map Char.toNat, fun ts => ts.map Char.ofNat⟩

/-- Deterministic stub embedder for witnesses (the spec's "vector =
[hash(text)]" idea): a one-component vector derived from the text. -/
def embedLen (s : String) : Vec := [(s.length : ℚ)]

/-- Stub embedding API for witnesses: serves the index-tagged vectors of a
deterministic embedder in reversed order, exercising the re-sort-by-index
step of `_embed_batch`. -/
def apiRev (embed : α → Vec) : List α → List (Nat × Vec) :=
  fun ts => ((ts.map embed).enum).reverse

/-- Concrete fixture rows for the search witnesses: two documents with
identical content in namespaces `ns1` and `ns2`. -/
def docW1 : KBDocument :=
  ⟨1, "ns1", "Doc1", "text", none, some "cat1", [("k", "v"), ("k2", "v2")], 3⟩

def docW2 : KBDocument :=
  ⟨2, "ns2", "Doc2", "text", none, some "cat1", [("k", "v")], 3⟩

def chunkW1 : KBChunk := ⟨11, 1, "ns1", 0, ['a', 'b', 'c'], none, 3, [1]⟩

def chunkW2 : KBChunk := ⟨12, 2, "ns2", 0, ['a', 'b', 'c'], none, 3, [2]⟩

def dbW : DB := ⟨[docW1, docW2], [chunkW1, chunkW2]⟩

/-- Squared Euclidean distance: a concrete stand-in for the pgvector
distance operator in witnesses. -/
def distSq (v w : Vec) : ℚ :=
  ((v.zip w).map fun p => (p.1 - p.2) * (p.1 - p.2)).sum

/-- The output row the fixture search returns (used in witnesses). -/
def outW : SearchOut :=
  ⟨11, 1, "Doc1", ['a', 'b', 'c'], 0, none, "text", none, some "cat1", 0⟩

/-- The document row the fixture ingestion produces (used in witnesses). -/
def docW9 : KBDocument := ⟨7, "nsA", "T", "text", none, none, [], 8⟩

/-- The chunk row the fixture ingestion produces (used in witnesses). -/
def chunkW9 : KBChunk :=
  ⟨100, 7, "nsA", 0, ['h', 'i', ' ', 't', 'h', 'e', 'r', 'e'], none, 8, [8]⟩

end KgPg

namespace KgPg

theorem insertLe_perm (le : α → α → Bool) (a : α) (l : List α) :
    (insertLe le a l).Perm (a :: l) := by
  induction l with
  | nil => exact List.Perm.refl _
  | cons b l ih =>
    unfold insertLe
    by_cases h : le a b = true
    · rw [if_pos h]
    · rw [if_neg h]
      exact (ih.cons b).trans (List.Perm.swap a b l)

theorem sortLe_perm (le : α → α → Bool) (l : List α) : (sortLe le l).Perm l := by
  induction l with
  | nil => exact List.Perm.refl _
  | cons a l ih => exact (insertLe_perm le a (sortLe le l)).trans (ih.cons a)

theorem mem_insertLe {le : α → α → Bool} {a x : α} {l : List α} :
    x ∈ insertLe le a l ↔ x = a ∨ x ∈ l := by
  rw [(insertLe_perm le a l).mem_iff, List.mem_cons]

theorem insertLe_pairwise (le : α → α → Bool)
    (htot : ∀ a b, le a b = true ∨ le b a = true)
    (htrans : ∀ a b c, le a b = true → le b c = true → le a c = true)
    (a : α) {l : List α} (h : l.Pairwise fun x y => le x y = true) :
    (insertLe le a l).Pairwise fun x y => le x y = true := by
  induction l with
  | nil => simp [insertLe]
  | cons b l ih =>
    rcases List.pairwise_cons.mp h with ⟨hb, hl⟩
    unfold insertLe
    by_cases hab : le a b = true
    · rw [if_pos hab]
      refine List.pairwise_cons.mpr ⟨?_, h⟩
      intro x hx
      rcases List.mem_cons.mp hx with rfl | hxl
      · exact hab
      · exact htrans a b x hab (hb x hxl)
    · rw [if_neg hab]
      have hba : le b a = true := (htot a b).resolve_left hab
      refine List.pairwise_cons.mpr ⟨?_, ih hl⟩
      intro x hx
      rcases mem_insertLe.mp hx with rfl | hxl
      · exact hba
      · exact hb x hxl

theorem sortLe_pairwise (le : α → α → Bool)
    (htot : ∀ a b, le a b = true ∨ le b a = true)
    (htrans : ∀ a b c, le a b = true → le b c = true → le a c = true)
    (l : List α) : (sortLe le l).Pairwise fun x y => le x y = true := by
  induction l with
  | nil => simp [sortLe]
  | cons a l ih => exact insertLe_pairwise le htot htrans a ih

/-- Re-sorting an index-tagged response that is a permutation of the
canonical enumeration recovers the canonical order: `_embed_batch` returns
one vector per input text, in input order. -/
theorem embedBatch_eq (api : List α → List (Nat × Vec)) (embed : α → Vec)
    (texts : List α) (h : (api texts).Perm ((texts.map embed).enum)) :
    embedBatch api texts = texts.map embed := by
  set le : Nat × Vec → Nat × Vec → Bool := fun x y => decide (x.1 ≤ y.1) with hle
  have hperm : (sortLe le (api texts)).Perm ((texts.map embed).enum) :=
    (sortLe_perm le (api texts)).trans h
  have hsorted : (sortLe le (api texts)).Pairwise
      fun x y : Nat × Vec => x.1 ≤ y.1 := by
    have hp := sortLe_pairwise le
      (fun a b => by simp [hle]; omega)
      (fun a b c hab hbc => by simp [hle] at hab hbc ⊢; omega)
      (api texts)
    exact hp.imp (fun hxy => by simpa [hle] using hxy)
  have hnd : (sortLe le (api texts)).Pairwise
      fun x y : Nat × Vec => x.1 ≠ y.1 := by
    have h1 : (((texts.map embed).enum).map Prod.fst).Nodup := by
      rw [List.enum_map_fst]; exact List.nodup_range _
    have h2 : ((sortLe le (api texts)).map Prod.fst).Nodup :=
      ((hperm.map Prod.fst).nodup_iff).mpr h1
    exact List.pairwise_map.mp h2
  have hlt : (sortLe le (api texts)).Pairwise
      fun x y : Nat × Vec => x.1 < y.1 :=
    (hsorted.and hnd).imp fun hc => lt_of_le_of_ne hc.1 hc.2
  have henum : ((texts.map embed).enum).Pairwise
      fun x y : Nat × Vec => x.1 < y.1 := by
    have hr := List.pairwise_lt_range ((texts.map embed).length)
    rw [← List.enum_map_fst] at hr
    exact List.pairwise_map.mp hr
  have heq : sortLe le (api texts) = (texts.map embed).enum :=
    @List.eq_of_perm_of_sorted _ (fun x y : Nat × Vec => x.1 < y.1)
      ⟨fun a b h1 h2 => absurd (h1.trans h2) (lt_irrefl _)⟩ _ _ hperm hlt henum
  show (sortLe le (api texts)).map Prod.snd = texts.map embed
  rw [heq, List.enum_map_snd]

/-- The consecutive slices `texts[i : i + bs]` for `i in range(0, total, bs)`
reassemble the input exactly. -/
theorem flatten_pyRange_batches (bs : Nat) (hbs : 1 ≤ bs) :
    ∀ l : List α, ((pyRange l.length bs).map fun i => (l.drop i).take bs).flatten = l := by
  intro l
  generalize hn : l.length = n
  induction n using Nat.strong_induction_on generalizing l with
  | _ n ih =>
    rcases Nat.eq_zero_or_pos n with h0 | hpos
    · subst h0
      have hl : l = [] := List.length_eq_zero.mp hn
      subst hl
      have hz : (0 + bs - 1) / bs = 0 := Nat.div_eq_of_lt (by omega)
      simp [pyRange, hz]
    · have hq : (n + bs - 1) / bs = (n - 1) / bs + 1 := by
        have h1 : n + bs - 1 = (n - 1) + bs := by omega
        rw [h1, Nat.add_div_right _ hbs]
      have hq2 : ((n - bs) + bs - 1) / bs = (n - 1) / bs := by
        rcases le_or_lt bs n with hle | hlt
        · have h2 : n - bs + bs - 1 = n - 1 := by omega
          rw [h2]
        · have h1 : n - bs = 0 := by omega
          rw [h1]
          rw [Nat.div_eq_of_lt (by omega), Nat.div_eq_of_lt (by omega)]
      have hrec := ih (n - bs) (by omega) (l.drop bs) (by rw [List.length_drop, hn])
      simp only [pyRange] at hrec ⊢
      rw [hq2] at hrec
      rw [hq, List.range_succ_eq_map]
      simp only [List.map_cons, List.map_map, List.flatten_cons]
      rw [Nat.zero_mul, List.drop_zero]
      have hmap : (List.range ((n - 1) / bs)).map
            ((fun i => (l.drop i).take bs) ∘ ((· * bs) ∘ Nat.succ))
          = ((List.range ((n - 1) / bs)).map (· * bs)).map
              fun i => ((l.drop bs).drop i).take bs := by
        rw [List.map_map]
        refine List.map_congr_left fun j hj => ?_
        simp only [Function.comp]
        rw [List.drop_drop]
        congr 2
        rw [Nat.succ_mul]
        omega
      rw [hmap, hrec]
      exact List.take_append_drop bs l

/-- C1: for every input list longer than `batch_size ≥ 1`, `embed_texts`
partitions the input into `ceil(n / batch_size)` consecutive batches of at
most `batch_size` items whose concatenation is the input, issues one
embedding request per batch in partition order, re-sorts each response by
its returned index, and the concatenated output equals, position by
position, what a single unbatched `_embed_batch` call on the whole list
would produce (both equal the list of per-text embeddings). -/
theorem embed_texts_batching_refines_unbatched
    (api : List α → List (Nat × Vec)) (embed : α → Vec) (bs : Nat)
    (texts : List α) (hbs : 1 ≤ bs) (hlong : bs < texts.length)
    (hapi : ∀ ts : List α, (api ts).Perm ((ts.map embed).enum)) :
    embedTexts api bs texts = texts.map embed
    ∧ (embedTexts api bs texts).length = texts.length
    ∧ embedCalls bs texts.length = (texts.length + bs - 1) / bs
    ∧ ((pyRange texts.length bs).map fun i => (texts.drop i).take bs).flatten
        = texts
    ∧ (∀ b ∈ (pyRange texts.length bs).map fun i => (texts.drop i).take bs,
        b.length ≤ bs)
    ∧ embedTexts api bs texts = embedBatch api texts := by
  have hne : ¬ (texts.isEmpty = true) := by
    cases texts with
    | nil => simp at hlong
    | cons t ts => simp
  have hnle : ¬ texts.length ≤ bs := not_le.mpr hlong
  have hmain : embedTexts api bs texts = texts.map embed := by
    unfold embedTexts
    rw [if_neg hne, if_neg hnle]
    have hbatches : ((pyRange texts.length bs).map fun i =>
        embedBatch api ((texts.drop i).take bs))
        = (pyRange texts.length bs).map fun i =>
            ((texts.drop i).take bs).map embed :=
      List.map_congr_left fun i _ => embedBatch_eq api embed _ (hapi _)
    rw [hbatches]
    conv_rhs => rw [← flatten_pyRange_batches bs hbs texts]
    rw [List.map_flatten, List.map_map]
    rfl
  refine ⟨hmain, by rw [hmain, List.length_map], ?_, ?_, ?_, ?_⟩
  · unfold embedCalls
    rw [if_neg (by omega), if_neg hnle]
    simp [pyRange]
  · exact flatten_pyRange_batches bs hbs texts
  · intro b hb
    rcases List.mem_map.mp hb with ⟨i, _, rfl⟩
    rw [List.length_take]
    exact min_le_left _ _
  · rw [hmain, embedBatch_eq api embed texts (hapi texts)]

/-- Witness for C1 at `texts = ["a", "bb", "ccc"]`, `batch_size = 2`, the
length-based stub embedder and an API stub that returns each response
reversed. -/
theorem embed_texts_batching_refines_unbatched_w :
    embedTexts (apiRev embedLen) 2 ["a", "bb", "ccc"]
      = [[(1 : ℚ)], [(2 : ℚ)], [(3 : ℚ)]] := by
  have h := embed_texts_batching_refines_unbatched (apiRev embedLen) embedLen 2
    ["a", "bb", "ccc"] (by decide) (by decide)
    (fun ts => List.reverse_perm _)
  rw [h.1]
  decide

/-- When the window step `chunk_size - chunk_overlap` is at least 1, the
token-window loop finishes within `total - start` iterations of fuel. -/
theorem splitLoop_isSome (enc : Encoding) (size ov : Int) (tokens : List Nat)
    (hstep : 1 ≤ size - ov) :
    ∀ (fuel : Nat) (start : Int),
      (tokens.length : Int) - start ≤ fuel →
      (splitLoop enc size ov tokens fuel start).isSome = true := by
  intro fuel
  induction fuel with
  | zero =>
    intro start h
    unfold splitLoop
    rw [if_neg (by omega)]
    rfl
  | succ f ih =>
    intro start h
    unfold splitLoop
    by_cases hlt : start < (tokens.length : Int)
    · rw [if_pos hlt]
      have hrec := ih (start + (size - ov)) (by omega)
      cases hsl : splitLoop enc size ov tokens f (start + (size - ov)) with
      | none => rw [hsl] at hrec; simp at hrec
      | some rest => simp only [hsl]; rfl
    · rw [if_neg hlt]
      rfl

theorem splitByTokens_isSome (cfg : ChunkerConfig) (enc : Encoding)
    (text : List Char) (hstep : 1 ≤ cfg.chunk_size - cfg.chunk_overlap) :
    (splitByTokens cfg enc text).isSome = true := by
  unfold splitByTokens
  by_cases hfit : (((enc.encode text).length : Int) ≤ cfg.chunk_size)
  · rw [if_pos hfit]
    rfl
  · rw [if_neg hfit]
    have h := splitLoop_isSome enc cfg.chunk_size cfg.chunk_overlap
      (enc.encode text) hstep (enc.encode text).length 0 (by omega)
    cases hsl : splitLoop enc cfg.chunk_size cfg.chunk_overlap (enc.encode text)
        (enc.encode text).length 0 with
    | none => rw [hsl] at h; simp at h
    | some cs => simp only [hsl]; rfl

theorem chunkGo_isSome (cfg : ChunkerConfig) (enc : Encoding)
    (hstep : 1 ≤ cfg.chunk_size - cfg.chunk_overlap) :
    ∀ (secs : List (Option (List Char) × List Char)) (idx : Nat),
      (chunkGo cfg enc secs idx).isSome = true := by
  intro secs
  induction secs with
  | nil => intro idx; rfl
  | cons s rest ih =>
    intro idx
    obtain ⟨h, st⟩ := s
    unfold chunkGo
    have hsome := splitByTokens_isSome cfg enc st hstep
    cases hsp : splitByTokens cfg enc st with
    | none => rw [hsp] at hsome; simp at hsome
    | some cs =>
      simp only [hsp]
      have hrec := ih (idx + cs.length)
      cases hgo : chunkGo cfg enc rest (idx + cs.length) with
      | none => rw [hgo] at hrec; simp at hrec
      | some others => simp only [hgo]; rfl

/-- C3: for every input text and every configuration with `chunk_size ≥ 1`
and `0 ≤ chunk_overlap < chunk_size`, `chunk(text)` terminates — the window
start advances by the positive amount `chunk_size - chunk_overlap` each
iteration, so the fuel-indexed loop model completes and no `none`
(non-termination) escapes. -/
theorem chunk_terminates_for_valid_config (cfg : ChunkerConfig)
    (enc : Encoding) (text : List Char) (hsize : 1 ≤ cfg.chunk_size)
    (hov0 : 0 ≤ cfg.chunk_overlap) (hov : cfg.chunk_overlap < cfg.chunk_size) :
    (chunk cfg enc text).isSome = true := by
  unfold chunk
  by_cases hempty : ((pyStrip text).isEmpty = true)
  · rw [if_pos hempty]
    rfl
  · rw [if_neg hempty]
    exact chunkGo_isSome cfg enc (by omega) (splitByHeadings text) 0

/-- Witness for C3 at `chunk_size = 3`, `chunk_overlap = 1`, character
tokens, input `"hello world"`. -/
theorem chunk_terminates_for_valid_config_w :
    (chunk ⟨3, 1⟩ encChar ("hello world".toList)).isSome = true :=
  chunk_terminates_for_valid_config ⟨3, 1⟩ encChar ("hello world".toList)
    (by decide) (by decide) (by decide)

/-- When the window step `chunk_size - chunk_overlap` is not positive, the
loop condition `start < total` never becomes false: the model returns `none`
for every fuel, i.e. the Python `while` loop never terminates. -/
theorem splitLoop_none_of_nonpos (enc : Encoding) (size ov : Int)
    (tokens : List Nat) (hstep : size - ov ≤ 0) :
    ∀ (fuel : Nat) (start : Int), start < (tokens.length : Int) →
      splitLoop enc size ov tokens fuel start = none := by
  intro fuel
  induction fuel with
  | zero =>
    intro start h
    unfold splitLoop
    rw [if_pos h]
  | succ f ih =>
    intro start h
    unfold splitLoop
    rw [if_pos h]
    have hrec := ih (start + (size - ov)) (by omega)
    simp only [hrec]

/-- C2 (code bug evidence): `Chunker.__init__` performs no validation —
it accepts `chunk_overlap = chunk_size` and a negative `chunk_overlap`
without any error — and with `chunk_overlap = chunk_size` the token-window
loop of a later `chunk` call never terminates on any text longer than
`chunk_size` tokens (the loop advances `start` by 0), so no
`ConfigurationError` is ever raised and the invalid configuration instead
hangs the component at chunk time. -/
theorem chunker_accepts_invalid_overlap_and_hangs :
    chunkerInit ⟨2, 2⟩ encChar = .ok (⟨2, 2⟩, encChar)
    ∧ chunkerInit ⟨2, -1⟩ encChar = .ok (⟨2, -1⟩, encChar)
    ∧ (∀ fuel : Nat,
        splitLoop encChar 2 2 (encChar.encode ['a', 'a', 'a']) fuel 0 = none)
    ∧ chunk ⟨2, 2⟩ encChar ['a', 'a', 'a'] = none := by
  refine ⟨rfl, rfl, ?_, by decide⟩
  intro fuel
  exact splitLoop_none_of_nonpos encChar 2 2 _ (by norm_num) fuel 0 (by decide)

/-- Every `some` result of the window loop started below `total` is
non-empty: the iteration at `start` contributes a chunk. -/
theorem splitLoop_ne_nil (enc : Encoding) (size ov : Int) (tokens : List Nat)
    (fuel : Nat) (start : Int) (ws : List (List Char))
    (hsl : splitLoop enc size ov tokens fuel start = some ws)
    (hlt : start < (tokens.length : Int)) : ws ≠ [] := by
  cases fuel with
  | zero =>
    unfold splitLoop at hsl
    rw [if_pos hlt] at hsl
    exact absurd hsl (by simp)
  | succ f =>
    unfold splitLoop at hsl
    rw [if_pos hlt] at hsl
    cases hrec : splitLoop enc size ov tokens f (start + (size - ov)) with
    | none => rw [hrec] at hsl; exact absurd hsl (by simp)
    | some rest =>
      rw [hrec] at hsl
      simp only [Option.some.injEq] at hsl
      rw [← hsl]
      simp

/-- If the window after the current one still starts below `total`, the loop
emits at least two chunks. -/
theorem splitLoop_two_le (enc : Encoding) (size ov : Int) (tokens : List Nat)
    (fuel : Nat) (start : Int) (ws : List (List Char))
    (hsl : splitLoop enc size ov tokens fuel start = some ws)
    (hstep : 1 ≤ size - ov)
    (hnext : start + (size - ov) < (tokens.length : Int)) : 2 ≤ ws.length := by
  cases fuel with
  | zero =>
    unfold splitLoop at hsl
    rw [if_pos (by omega)] at hsl
    exact absurd hsl (by simp)
  | succ f =>
    unfold splitLoop at hsl
    rw [if_pos (by omega)] at hsl
    cases hrec : splitLoop enc size ov tokens f (start + (size - ov)) with
    | none => rw [hrec] at hsl; exact absurd hsl (by simp)
    | some rest =>
      rw [hrec] at hsl
      simp only [Option.some.injEq] at hsl
      have hne := splitLoop_ne_nil enc size ov tokens f _ rest hrec hnext
      rw [← hsl]
      simp only [List.length_cons]
      have : 1 ≤ rest.length := List.length_pos.mpr hne
      omega

/-- C8 (amended): input whose token count exceeds `chunk_size` — a single
long word included — is windowed by `_split_by_tokens`: the loop emits at
least two token-window chunks (the output is their empty-filtered list),
rather than one oversized passage. -/
theorem over_budget_input_is_windowed (cfg : ChunkerConfig) (enc : Encoding)
    (text : List Char) (hov0 : 0 ≤ cfg.chunk_overlap)
    (hov : cfg.chunk_overlap < cfg.chunk_size)
    (hbig : cfg.chunk_size < ((enc.encode text).length : Int)) :
    ∃ ws : List (List Char),
      splitByTokens cfg enc text = some (ws.filter fun c => !c.isEmpty)
      ∧ 2 ≤ ws.length := by
  have hstep : 1 ≤ cfg.chunk_size - cfg.chunk_overlap := by omega
  have hs := splitLoop_isSome enc cfg.chunk_size cfg.chunk_overlap
    (enc.encode text) hstep (enc.encode text).length 0 (by omega)
  cases hsl : splitLoop enc cfg.chunk_size cfg.chunk_overlap (enc.encode text)
      (enc.encode text).length 0 with
  | none => rw [hsl] at hs; simp at hs
  | some ws =>
    refine ⟨ws, ?_, ?_⟩
    · unfold splitByTokens
      rw [if_neg (by omega)]
      simp only [hsl]
    · exact splitLoop_two_le enc cfg.chunk_size cfg.chunk_overlap
        (enc.encode text) _ 0 ws hsl hstep (by omega)

/-- Witness for the amended C8 at `chunk_size = 2`, `chunk_overlap = 0`,
character tokens, the 4-token single word `"aaaa"`. -/
theorem over_budget_input_is_windowed_w :
    ∃ ws : List (List Char),
      splitByTokens ⟨2, 0⟩ encChar ['a', 'a', 'a', 'a']
        = some (ws.filter fun c => !c.isEmpty)
      ∧ 2 ≤ ws.length :=
  over_budget_input_is_windowed ⟨2, 0⟩ encChar ['a', 'a', 'a', 'a']
    (by decide) (by decide) (by decide)

/-- C8 counterexample: `"aaaa"` is a single word (no whitespace) of 4 tokens
with `chunk_size = 2`, yet `chunk` returns two passages, not one oversized
passage. -/
theorem single_long_word_split_cex :
    (∀ c ∈ ['a', 'a', 'a', 'a'], pyIsSpace c = false)
    ∧ (2 : Int) < ((encChar.encode ['a', 'a', 'a', 'a']).length : Int)
    ∧ chunk ⟨2, 0⟩ encChar ['a', 'a', 'a', 'a']
        = some [⟨['a', 'a'], 0, none, 2⟩, ⟨['a', 'a'], 1, none, 2⟩]
    ∧ (chunk ⟨2, 0⟩ encChar ['a', 'a', 'a', 'a']).map List.length ≠ some 1 := by
  refine ⟨by decide, by decide, by decide, by decide⟩

/-- The running counter: passages produced from `idx` onward carry exactly
the consecutive indices `idx, idx + 1, ...`. -/
theorem chunkGo_indices (cfg : ChunkerConfig) (enc : Encoding) :
    ∀ (secs : List (Option (List Char) × List Char)) (idx : Nat)
      (l : List ChunkResult), chunkGo cfg enc secs idx = some l →
      l.map (fun c => c.chunk_index) = List.range' idx l.length := by
  intro secs
  induction secs with
  | nil =>
    intro idx l h
    simp only [chunkGo, Option.some.injEq] at h
    subst h
    rfl
  | cons s rest ih =>
    intro idx l h
    obtain ⟨hd, st⟩ := s
    unfold chunkGo at h
    cases hsp : splitByTokens cfg enc st with
    | none => simp only [hsp] at h; exact absurd h (by simp)
    | some cs =>
      simp only [hsp] at h
      cases hgo : chunkGo cfg enc rest (idx + cs.length) with
      | none => simp only [hgo] at h; exact absurd h (by simp)
      | some others =>
        simp only [hgo, Option.some.injEq] at h
        subst h
        have hih := ih (idx + cs.length) others hgo
        rw [List.map_append, hih, List.map_map]
        have h1 : ((fun c : ChunkResult => c.chunk_index) ∘ fun p : Nat × List Char =>
            (⟨p.2, idx + p.1, hd, (enc.encode p.2).length⟩ : ChunkResult))
            = (fun n => idx + n) ∘ Prod.fst := rfl
        rw [h1, ← List.map_map, List.enum_map_fst, ← List.range'_eq_map_range]
        have h2 := List.range'_append idx cs.length others.length 1
        rw [one_mul] at h2
        rw [h2]
        congr 1
        simp [List.length_map, List.enum_length]
        omega


/-- C4: for every non-empty input, the passage sequence indices are exactly
`0 .. n-1`, with no gaps and no duplicates, assigned by the single running
counter across all sections in document order (including when empty
post-trim window chunks were discarded inside a section). -/
theorem chunk_indices_contiguous (cfg : ChunkerConfig) (enc : Encoding)
    (text : List Char) (l : List ChunkResult)
    (hne : (pyStrip text).isEmpty = false)
    (hc : chunk cfg enc text = some l) :
    l.map (fun c => c.chunk_index) = List.range l.length := by
  unfold chunk at hc
  rw [if_neg (by simp [hne])] at hc
  rw [chunkGo_indices cfg enc _ 0 l hc, List.range_eq_range']

/-- Witness for C4 on `"# A\nfoo\n# B\nbar"` with character tokens. -/
theorem chunk_indices_contiguous_w :
    ([⟨['f', 'o', 'o'], 0, some ['A'], 3⟩,
      ⟨['b', 'a', 'r'], 1, some ['B'], 3⟩] : List ChunkResult).map
        (fun c => c.chunk_index)
      = List.range ([⟨['f', 'o', 'o'], 0, some ['A'], 3⟩,
          ⟨['b', 'a', 'r'], 1, some ['B'], 3⟩] : List ChunkResult).length :=
  chunk_indices_contiguous ⟨512, 50⟩ encChar ("# A\nfoo\n# B\nbar".toList)
    _ (by decide) (by decide)

/-- `sectionsOf` is the `if content:`-filtered view of `matchSections`. -/
theorem sectionsOf_eq_filter (text : List Char) :
    ∀ ms : List HMatch, sectionsOf text ms
      = (matchSections text ms).filterMap
          (fun pr => if pr.2.isEmpty then none else some (some pr.1, pr.2)) := by
  intro ms
  induction ms with
  | nil => rfl
  | cons m rest ih =>
    unfold sectionsOf matchSections
    rw [List.filterMap_cons]
    by_cases hc : (pyStrip ((text.drop m.mend).take
        (nextStart text rest - m.mend))).isEmpty = true
    · rw [if_pos hc]
      simp only [hc, if_true, List.nil_append]
      exact ih
    · rw [if_neg hc]
      simp only [eq_false_of_ne_true hc, Bool.false_eq_true, if_false,
        List.singleton_append]
      rw [ih]

/-- Every section produced by the heading loop is a match's stripped heading
with that match's non-empty stripped content. -/
theorem mem_sectionsOf {text : List Char} {ms : List HMatch}
    {s : Option (List Char) × List Char} (h : s ∈ sectionsOf text ms) :
    ∃ q ∈ matchSections text ms, q.2.isEmpty = false ∧ s = (some q.1, q.2) := by
  rw [sectionsOf_eq_filter] at h
  rcases List.mem_filterMap.mp h with ⟨q, hq, he⟩
  by_cases h2 : q.2.isEmpty = true
  · rw [if_pos h2] at he
    exact absurd he (by simp)
  · rw [if_neg h2] at he
    simp only [Option.some.injEq] at he
    exact ⟨q, hq, eq_false_of_ne_true h2, he.symm⟩

/-- Every section `_split_by_headings` returns is either heading-less (the
pre-heading or no-headings section) or a match's heading with non-empty
stripped content. -/
theorem mem_splitByHeadings {text : List Char}
    {s : Option (List Char) × List Char} (h : s ∈ splitByHeadings text) :
    s.1 = none
    ∨ ∃ q ∈ matchSections text (scanMatches text),
        q.2.isEmpty = false ∧ s = (some q.1, q.2) := by
  unfold splitByHeadings at h
  cases hm : scanMatches text with
  | nil =>
    rw [hm] at h
    simp only [List.mem_singleton] at h
    subst h
    exact Or.inl rfl
  | cons m0 rest =>
    rw [hm] at h
    rcases List.mem_append.mp h with hpre | hsec
    · left
      by_cases h0 : 0 < m0.mstart
      · rw [if_pos h0] at hpre
        by_cases hpc : (pyStrip (text.take m0.mstart)).isEmpty = true
        · simp [hpc] at hpre
        · simp only [eq_false_of_ne_true hpc, Bool.false_eq_true, if_false,
            List.mem_singleton] at hpre
          rw [hpre]
      · rw [if_neg h0] at hpre
        simp at hpre
    · right
      rw [← hm] at hsec ⊢
      exact mem_sectionsOf hsec

/-- Every passage's section heading is the heading of one of the sections
fed to the token splitter. -/
theorem chunkGo_heading (cfg : ChunkerConfig) (enc : Encoding) :
    ∀ (secs : List (Option (List Char) × List Char)) (idx : Nat)
      (l : List ChunkResult), chunkGo cfg enc secs idx = some l →
      ∀ p ∈ l, ∃ s ∈ secs, p.section_heading = s.1 := by
  intro secs
  induction secs with
  | nil =>
    intro idx l h p hp
    simp only [chunkGo, Option.some.injEq] at h
    subst h
    simp at hp
  | cons s rest ih =>
    intro idx l h p hp
    obtain ⟨hd, st⟩ := s
    unfold chunkGo at h
    cases hsp : splitByTokens cfg enc st with
    | none => simp only [hsp] at h; exact absurd h (by simp)
    | some cs =>
      simp only [hsp] at h
      cases hgo : chunkGo cfg enc rest (idx + cs.length) with
      | none => simp only [hgo] at h; exact absurd h (by simp)
      | some others =>
        simp only [hgo, Option.some.injEq] at h
        subst h
        rcases List.mem_append.mp hp with hp1 | hp2
        · rcases List.mem_map.mp hp1 with ⟨q, _, rfl⟩
          exact ⟨(hd, st), List.mem_cons_self _ _, rfl⟩
        · rcases ih (idx + cs.length) others hgo p hp2 with ⟨s, hs, heq⟩
          exact ⟨s, List.mem_cons_of_mem _ hs, heq⟩

/-- C10: a markdown heading whose every occurrence has empty post-trim
section content (a heading immediately followed by another heading or the
end of the document) contributes no section and no passage: that heading
string never appears as a passage's `section_heading`. -/
theorem empty_section_heading_never_appears (cfg : ChunkerConfig)
    (enc : Encoding) (text : List Char) (h : List Char)
    (l : List ChunkResult)
    (hempty : ∀ q ∈ matchSections text (scanMatches text),
      q.1 = h → q.2 = [])
    (hc : chunk cfg enc text = some l) :
    ∀ p ∈ l, p.section_heading ≠ some h := by
  intro p hp
  unfold chunk at hc
  by_cases he : ((pyStrip text).isEmpty = true)
  · rw [if_pos he] at hc
    simp only [Option.some.injEq] at hc
    subst hc
    simp at hp
  · rw [if_neg he] at hc
    rcases chunkGo_heading cfg enc _ 0 l hc p hp with ⟨s, hs, heq⟩
    rcases mem_splitByHeadings hs with h1 | ⟨q, hq, hne, rfl⟩
    · rw [heq, h1]
      simp
    · rw [heq]
      simp only [ne_eq, Option.some.injEq]
      intro hqh
      have := hempty q hq hqh
      rw [this] at hne
      simp at hne

/-- Witness for C10 on `"# A\n# B\nbody"`: heading `A` has empty content and
appears on no passage. -/
theorem empty_section_heading_never_appears_w :
    (⟨['b', 'o', 'd', 'y'], 0, some ['B'], 4⟩ : ChunkResult).section_heading
      ≠ some ['A'] :=
  empty_section_heading_never_appears ⟨512, 50⟩ encChar
    ("# A\n# B\nbody".toList) ['A']
    [⟨['b', 'o', 'd', 'y'], 0, some ['B'], 4⟩] (by decide) (by decide)
    ⟨['b', 'o', 'd', 'y'], 0, some ['B'], 4⟩ (by simp)

end KgPg

namespace KgPg

theorem mem_joinRows {db : DB} {cd : KBChunk × KBDocument} :
    cd ∈ joinRows db ↔
      cd.1 ∈ db.chunks ∧ cd.2 ∈ db.docs ∧ cd.1.document_id = cd.2.id := by
  unfold joinRows
  rw [List.mem_flatten]
  constructor
  · rintro ⟨l, hl, hcd⟩
    rcases List.mem_map.mp hl with ⟨c, hc, rfl⟩
    rcases List.mem_map.mp hcd with ⟨d, hd, rfl⟩
    rcases List.mem_filter.mp hd with ⟨hdm, hbeq⟩
    exact ⟨hc, hdm, by simpa using hbeq⟩
  · rintro ⟨h1, h2, h3⟩
    refine ⟨(db.docs.filter fun d => cd.1.document_id == d.id).map
      (fun d => (cd.1, d)), List.mem_map.mpr ⟨cd.1, h1, rfl⟩, ?_⟩
    refine List.mem_map.mpr ⟨cd.2, List.mem_filter.mpr ⟨h2, by simpa using h3⟩, rfl⟩

theorem mem_eligible {db : DB} {ns : String} {cat : Option String}
    {mf : Option (List (String × String))} {cd : KBChunk × KBDocument} :
    cd ∈ eligible db ns cat mf ↔
      cd ∈ joinRows db ∧ cd.1.ns = ns
      ∧ (∀ c, cat = some c → cd.2.category = some c)
      ∧ (∀ f, mf = some f → metaContains cd.2.metadata_ f = true) := by
  unfold eligible
  rw [List.mem_filter]
  constructor
  · rintro ⟨hj, hb⟩
    simp only [Bool.and_eq_true, beq_iff_eq] at hb
    obtain ⟨⟨h1, h2⟩, h3⟩ := hb
    refine ⟨hj, h1, ?_, ?_⟩
    · intro c hc
      subst hc
      simpa using h2
    · intro f hf
      subst hf
      exact h3
  · rintro ⟨hj, h1, h2, h3⟩
    refine ⟨hj, ?_⟩
    simp only [Bool.and_eq_true, beq_iff_eq]
    refine ⟨⟨h1, ?_⟩, ?_⟩
    · cases cat with
      | none => rfl
      | some c => simpa using h2 c rfl
    · cases mf with
      | none => rfl
      | some f => exact h3 f rfl

theorem searchExec_ok {db : DB} {dist : Vec → Vec → ℚ} {qv : Vec}
    {ns : String} {lim : Int} {cat : Option String}
    {mf : Option (List (String × String))} {rs : List SearchOut}
    (h : (searchExec db dist qv ns lim cat mf).1 = .ok rs) :
    0 ≤ lim
    ∧ rs = ((rankDesc dist qv (eligible db ns cat mf)).take lim.toNat).map
        (mkOut dist qv) := by
  unfold searchExec at h
  by_cases hl : lim < 0
  · rw [if_pos hl] at h
    exact absurd h (by simp)
  · rw [if_neg hl] at h
    simp only [Except.ok.injEq] at h
    exact ⟨by omega, h.symm⟩

/-- C5: every result of `search` comes from a stored chunk whose namespace
exactly equals the requested namespace, whose parent document category
equals a supplied category, and whose parent document metadata contains a
supplied metadata filter — the three filters are conjunctive, so a search in
one namespace never returns a chunk of another. -/
theorem search_results_match_filters (db : DB) (dist : Vec → Vec → ℚ)
    (qv : Vec) (ns : String) (lim : Int) (cat : Option String)
    (mf : Option (List (String × String))) (rs : List SearchOut)
    (h : (searchExec db dist qv ns lim cat mf).1 = .ok rs) :
    ∀ r ∈ rs, ∃ c ∈ db.chunks, ∃ d ∈ db.docs,
      c.id = r.chunk_id ∧ c.document_id = d.id ∧ c.ns = ns
      ∧ (∀ cc, cat = some cc → d.category = some cc)
      ∧ (∀ f, mf = some f → metaContains d.metadata_ f = true) := by
  obtain ⟨-, hrs⟩ := searchExec_ok h
  subst hrs
  intro r hr
  rcases List.mem_map.mp hr with ⟨cd, hcd, rfl⟩
  have hmem : cd ∈ eligible db ns cat mf :=
    ((sortLe_perm _ _).mem_iff).mp (List.mem_of_mem_take hcd)
  rcases mem_eligible.mp hmem with ⟨hj, h1, h2, h3⟩
  rcases mem_joinRows.mp hj with ⟨hc, hd, hid⟩
  exact ⟨cd.1, hc, cd.2, hd, rfl, hid, h1, h2, h3⟩

/-- Witness for C5 on the two-namespace fixture store with category and
metadata filters supplied. -/
theorem search_results_match_filters_w :
    ∃ c ∈ dbW.chunks, ∃ d ∈ dbW.docs,
      c.id = outW.chunk_id ∧ c.document_id = d.id ∧ c.ns = "ns1"
      ∧ d.category = some "cat1"
      ∧ metaContains d.metadata_ [("k", "v")] = true := by
  have h := search_results_match_filters dbW distSq [0] "ns1" 10 (some "cat1")
    (some [("k", "v")]) [outW]
    (by norm_num [searchExec, rankDesc, sortLe, insertLe, eligible, joinRows,
      metaContains, simOf, mkOut, round4, distSq, dbW, docW1, docW2, chunkW1,
      chunkW2, outW])
  rcases h outW (by simp) with ⟨c, hc, d, hd, h1, h2, h3, h4, h5⟩
  exact ⟨c, hc, d, hd, h1, h2, h3, h4 "cat1" rfl, h5 [("k", "v")] rfl⟩

/-- C6: on success, `search` scores each eligible chunk as
`1 - cosine_distance(stored_vector, query_vector)`, sorts all eligible rows
by that full-precision similarity in descending order, truncates to `limit`,
and only the scores placed in the returned dicts are rounded to 4 decimal
digits. -/
theorem search_ranked_full_precision_rounded_output (db : DB)
    (dist : Vec → Vec → ℚ) (qv : Vec) (ns : String) (lim : Int)
    (cat : Option String) (mf : Option (List (String × String)))
    (rs : List SearchOut)
    (h : (searchExec db dist qv ns lim cat mf).1 = .ok rs) :
    ∃ chosen rest : List (KBChunk × KBDocument),
      rankDesc dist qv (eligible db ns cat mf) = chosen ++ rest
      ∧ (chosen ++ rest).Perm (eligible db ns cat mf)
      ∧ ((chosen ++ rest).map fun cd => simOf dist qv cd.1).Sorted (· ≥ ·)
      ∧ rs = chosen.map (mkOut dist qv)
      ∧ chosen.length = min lim.toNat (eligible db ns cat mf).length
      ∧ (∀ a ∈ chosen, ∀ b ∈ rest, simOf dist qv b.1 ≤ simOf dist qv a.1)
      ∧ (∀ r ∈ rs, ∃ cd ∈ eligible db ns cat mf,
          r.similarity = round4 (1 - dist cd.1.embedding qv)) := by
  obtain ⟨-, hrs⟩ := searchExec_ok h
  set le : KBChunk × KBDocument → KBChunk × KBDocument → Bool :=
    fun a b => decide (simOf dist qv b.1 ≤ simOf dist qv a.1) with hle
  have hpw : (rankDesc dist qv (eligible db ns cat mf)).Pairwise
      fun x y => le x y = true := by
    refine sortLe_pairwise le ?_ ?_ _
    · intro a b
      simp only [hle, decide_eq_true_eq]
      exact le_total _ _
    · intro a b c hab hbc
      simp only [hle, decide_eq_true_eq] at hab hbc ⊢
      exact le_trans hbc hab
  refine ⟨(rankDesc dist qv (eligible db ns cat mf)).take lim.toNat,
    (rankDesc dist qv (eligible db ns cat mf)).drop lim.toNat,
    (List.take_append_drop _ _).symm, ?_, ?_, hrs, ?_, ?_, ?_⟩
  · rw [List.take_append_drop]
    exact sortLe_perm _ _
  · rw [List.take_append_drop]
    rw [List.Sorted, List.pairwise_map]
    exact hpw.imp fun hxy => by simpa [hle] using hxy
  · rw [List.length_take,
      show (rankDesc dist qv (eligible db ns cat mf)).length
        = (eligible db ns cat mf).length from (sortLe_perm _ _).length_eq]
  · intro a ha b hb
    have hall : List.Pairwise (fun x y => le x y = true)
        ((rankDesc dist qv (eligible db ns cat mf)).take lim.toNat
          ++ (rankDesc dist qv (eligible db ns cat mf)).drop lim.toNat) := by
      rw [List.take_append_drop]
      exact hpw
    have := (List.pairwise_append.mp hall).2.2 a ha b hb
    simpa [hle] using this
  · intro r hr
    rw [hrs] at hr
    rcases List.mem_map.mp hr with ⟨cd, hcd, rfl⟩
    have hmem : cd ∈ eligible db ns cat mf :=
      ((sortLe_perm _ _).mem_iff).mp (List.mem_of_mem_take hcd)
    exact ⟨cd, hmem, rfl⟩

/-- Witness for C6 on the fixture store. -/
theorem search_ranked_full_precision_rounded_output_w :
    ∃ chosen rest : List (KBChunk × KBDocument),
      rankDesc distSq [0] (eligible dbW "ns1" none none) = chosen ++ rest
      ∧ (chosen ++ rest).Perm (eligible dbW "ns1" none none)
      ∧ ((chosen ++ rest).map fun cd => simOf distSq [0] cd.1).Sorted (· ≥ ·)
      ∧ [outW] = chosen.map (mkOut distSq [0])
      ∧ chosen.length
          = min (Int.toNat 10) (eligible dbW "ns1" none none).length
      ∧ (∀ a ∈ chosen, ∀ b ∈ rest,
          simOf distSq [0] b.1 ≤ simOf distSq [0] a.1)
      ∧ (∀ r ∈ [outW], ∃ cd ∈ eligible dbW "ns1" none none,
          r.similarity = round4 (1 - distSq cd.1.embedding [0])) :=
  search_ranked_full_precision_rounded_output dbW distSq [0] "ns1" 10
    none none [outW]
    (by norm_num [searchExec, rankDesc, sortLe, insertLe, eligible, joinRows,
      metaContains, simOf, mkOut, round4, distSq, dbW, docW1, docW2, chunkW1,
      chunkW2, outW])

/-- C7 counterexample: with `limit = 0` the code still executes the ranking
statement against the store (the query count is 1, not 0) even though it
returns `[]`, and a negative limit is rejected by the store with an error
instead of returning `[]` — `search` has no `limit ≤ 0` special case. -/
theorem search_limit_zero_executes_query_cex :
    (searchExec dbW distSq [0] "ns1" 0 none none).2 = 1
    ∧ (searchExec dbW distSq [0] "ns1" 0 none none).2 ≠ 0
    ∧ (searchExec dbW distSq [0] "ns1" 0 none none).1 = .ok []
    ∧ (searchExec dbW distSq [0] "ns1" (-1) none none).1
        = .error "LIMIT must not be negative" := by
  refine ⟨by decide, by decide, ?_, ?_⟩
  · norm_num [searchExec, rankDesc, sortLe, insertLe, eligible, joinRows,
      metaContains, simOf, dbW, docW1, docW2, chunkW1, chunkW2]
  · norm_num [searchExec]

/-- C7 (amended): for `limit ≤ 0` the ranking query is still executed
(exactly one statement reaches the store); `limit = 0` returns the empty
sequence via SQL `LIMIT 0`, and a negative limit produces a database error
rather than an empty result. -/
theorem search_limit_nonpositive_behavior (db : DB) (dist : Vec → Vec → ℚ)
    (qv : Vec) (ns : String) (cat : Option String)
    (mf : Option (List (String × String))) (lim : Int) (hlim : lim ≤ 0) :
    (searchExec db dist qv ns lim cat mf).2 = 1
    ∧ (lim = 0 → (searchExec db dist qv ns lim cat mf).1 = .ok [])
    ∧ (lim < 0 → (searchExec db dist qv ns lim cat mf).1
        = .error "LIMIT must not be negative") := by
  unfold searchExec
  by_cases hl : lim < 0
  · rw [if_pos hl]
    exact ⟨rfl, fun h0 => absurd h0 (by omega), fun _ => rfl⟩
  · rw [if_neg hl]
    have h0 : lim = 0 := by omega
    subst h0
    exact ⟨rfl, fun _ => by simp, fun hneg => absurd hneg (by omega)⟩

/-- Witness for the amended C7 at `limit = 0` on the fixture store. -/
theorem search_limit_nonpositive_behavior_w :
    (searchExec dbW distSq [0] "ns1" 0 none none).2 = 1
    ∧ ((0 : Int) = 0 → (searchExec dbW distSq [0] "ns1" 0 none none).1
        = .ok [])
    ∧ ((0 : Int) < 0 → (searchExec dbW distSq [0] "ns1" 0 none none).1
        = .error "LIMIT must not be negative") :=
  search_limit_nonpositive_behavior dbW distSq [0] "ns1" none none 0
    (by decide)

/-- C9: every `KBChunk` row `_store_document` creates carries the same
namespace as its parent `KBDocument` row (both are set from the single
`namespace` argument) and points at that document's id — the denormalized
chunk namespace and the parent document namespace never diverge. -/
theorem store_document_chunk_namespace_matches (cfg : ChunkerConfig)
    (enc : Encoding) (api : List (List Char) → List (Nat × Vec)) (bs : Nat)
    (docId : Nat) (cid : Nat → Nat) (parsed : ParseResult)
    (source_type : String) (source_ref : Option String) (ns : String)
    (category : Option String) (metadata : Option (List (String × String)))
    (doc : KBDocument) (rows : List KBChunk)
    (h : storeDocument cfg enc api bs docId cid parsed source_type source_ref
      ns category metadata = some (doc, rows)) :
    doc.ns = ns ∧ ∀ c ∈ rows, c.ns = doc.ns ∧ c.document_id = doc.id := by
  unfold storeDocument at h
  cases hc : chunk cfg enc parsed.text with
  | none => simp only [hc] at h; exact absurd h (by simp)
  | some chunks =>
    simp only [hc, Option.some.injEq, Prod.mk.injEq] at h
    obtain ⟨hdoc, hrows⟩ := h
    subst hdoc
    subst hrows
    refine ⟨rfl, ?_⟩
    intro c hcm
    rcases List.mem_map.mp hcm with ⟨p, _, rfl⟩
    exact ⟨rfl, rfl⟩

/-- Witness for C9 on a concrete ingestion into namespace `nsA`. -/
theorem store_document_chunk_namespace_matches_w :
    docW9.ns = "nsA"
    ∧ ∀ c ∈ [chunkW9],
        c.ns = docW9.ns ∧ c.document_id = docW9.id :=
  store_document_chunk_namespace_matches ⟨512, 50⟩ encChar
    (apiRev fun s => [(s.length : ℚ)]) 100 7 (fun i => 100 + i)
    ⟨"hi there".toList, some "T", []⟩ "text" none "nsA" none none docW9
    [chunkW9] (by rfl)

end KgPg
